import Mathlib

/-!
Verification of the `AnyBefore` follower capture policy from the flow
multi-stream synchronization engine
(`flow/include/follower/impl/any_before.hpp`).

The embedding uses integer stamps.  A capture queue is a list of
dispatches with the oldest element at the front; the policy state is the
queue together with the configured `delay_` offset.
-/

namespace Flow

/-- Result states reported by a captor (`flow::State`). -/
inductive State
  | PRIMED
  | RETRY
  | ABORT
  | TIMEOUT
  deriving DecidableEq, Repr

/-- A dispatch: an immutable wrapper carrying a sequencing stamp and a
data value.  Integer stamps instantiate the stamp traits. -/
structure Dispatch where
  stamp : Int
  data : Nat
  deriving DecidableEq, Repr

/-- The driving capture range `[lower_stamp, upper_stamp]` produced by a
driver captor (`flow::CaptureRange`). -/
structure CaptureRange where
  lower_stamp : Int
  upper_stamp : Int
  deriving DecidableEq, Repr

/-- Modelled from the spec: the capture queue operation `remove_before(s)`
(spec section 4.1), whose implementation file is not among the sources
here.  It retires all elements with `stamp < s`, keeping the others in
order. -/
def remove_before (s : Int) (q : List Dispatch) : List Dispatch :=
  q.filter (fun d => s ≤ d.stamp)

/-- Modelled from the spec: queue insertion (spec section 4.1), whose
implementation file is not among the sources here.  `insert(d)` places
`d` at its stamp-ordered position; equal stamps preserve insertion
order. -/
def insert_dispatch (d : Dispatch) : List Dispatch → List Dispatch
  | [] => [d]
  | e :: rest =>
    if e.stamp ≤ d.stamp then e :: insert_dispatch d rest else d :: e :: rest

/-- The capture loop of `AnyBefore::capture_follower_impl`: while the
queue is non-empty and its oldest stamp is below the boundary, pop the
oldest element to the output.  Returns the emitted elements and the
remaining queue. -/
def capture_loop (boundary : Int) : List Dispatch → List Dispatch × List Dispatch
  | [] => ([], [])
  | d :: rest =>
    if d.stamp < boundary then
      ((d :: (capture_loop boundary rest).1), (capture_loop boundary rest).2)
    else
      ([], d :: rest)

/-- State of an `AnyBefore` follower captor: its capture queue and the
configured delay offset (field names follow the C++ members). -/
structure AnyBefore where
  delay_ : Int
  queue_ : List Dispatch
  deriving DecidableEq, Repr

/-- Result of a follower capture call: the dispatches written to the
output iterator, the updated captor, and the returned state. -/
structure CaptureResult where
  output : List Dispatch
  follower : AnyBefore
  state : State
  deriving DecidableEq, Repr

/-- `AnyBefore::capture_follower_impl`: compute the non-inclusive
boundary `range.upper_stamp - delay_`, pop every element older than the
boundary to the output, remove all elements before the boundary, and
return `PRIMED`. -/
def capture_follower_impl (f : AnyBefore) (range : CaptureRange) : CaptureResult :=
  let boundary : Int := range.upper_stamp - f.delay_
  { output := (capture_loop boundary f.queue_).1
    follower := { f with queue_ := remove_before boundary (capture_loop boundary f.queue_).2 }
    state := State.PRIMED }

/-- `AnyBefore::dry_capture_follower_impl`: a `const` method that always
returns `PRIMED`; the captor is returned unchanged to make the absence
of mutation explicit. -/
def dry_capture_follower_impl (f : AnyBefore) (_range : CaptureRange) : State × AnyBefore :=
  (State.PRIMED, f)

/-- `AnyBefore::abort_follower_impl`: remove all queued elements before
`t_abort - delay_`; nothing is emitted and the delay is untouched. -/
def abort_follower_impl (f : AnyBefore) (t_abort : Int) : AnyBefore :=
  { f with queue_ := remove_before (t_abort - f.delay_) f.queue_ }

/-- Invariant Q1: queue elements are stored in non-decreasing stamp
order. -/
abbrev StampSorted (q : List Dispatch) : Prop :=
  q.Pairwise (fun a b => a.stamp ≤ b.stamp)

/-- An interleaved operation on an `AnyBefore` captor. -/
inductive Op
  | inject (d : Dispatch)
  | capture (r : CaptureRange)
  | dry_capture (r : CaptureRange)
  | abort (t : Int)
  deriving DecidableEq, Repr

/-- Run a sequence of operations against an `AnyBefore` captor,
accumulating every dispatch emitted by the capture calls. -/
def run_ops (f : AnyBefore) : List Op → List Dispatch × AnyBefore
  | [] => ([], f)
  | Op.inject d :: ops => run_ops { f with queue_ := insert_dispatch d f.queue_ } ops
  | Op.capture r :: ops =>
    ((capture_follower_impl f r).output ++ (run_ops (capture_follower_impl f r).follower ops).1,
      (run_ops (capture_follower_impl f r).follower ops).2)
  | Op.dry_capture r :: ops => run_ops (dry_capture_follower_impl f r).2 ops
  | Op.abort t :: ops => run_ops (abort_follower_impl f t) ops

/-- The dispatches injected by a sequence of operations, in order. -/
def injected : List Op → List Dispatch
  | [] => []
  | Op.inject d :: ops => d :: injected ops
  | Op.capture _ :: ops => injected ops
  | Op.dry_capture _ :: ops => injected ops
  | Op.abort _ :: ops => injected ops

/-- Concatenated outputs of a sequence of capture calls with the given
ranges. -/
def capture_seq (f : AnyBefore) : List CaptureRange → List Dispatch
  | [] => []
  | r :: rs =>
    (capture_follower_impl f r).output ++ capture_seq (capture_follower_impl f r).follower rs

/-! ### Helper lemmas about the capture loop and queue operations -/

theorem capture_loop_append (b : Int) (q : List Dispatch) :
    (capture_loop b q).1 ++ (capture_loop b q).2 = q := by
  induction q with
  | nil => rfl
  | cons d rest ih =>
    by_cases h : d.stamp < b
    · simp [capture_loop, h, ih]
    · simp [capture_loop, h]

theorem capture_loop_fst_lt (b : Int) (q : List Dispatch) :
    ∀ d ∈ (capture_loop b q).1, d.stamp < b := by
  induction q with
  | nil => simp [capture_loop]
  | cons d rest ih =>
    by_cases h : d.stamp < b
    · simpa [capture_loop, h] using ih
    · simp [capture_loop, h]

theorem capture_loop_fst_sublist (b : Int) (q : List Dispatch) :
    List.Sublist (capture_loop b q).1 q := by
  conv_rhs => rw [← capture_loop_append b q]
  exact List.sublist_append_left _ _

theorem capture_loop_snd_sublist (b : Int) (q : List Dispatch) :
    List.Sublist (capture_loop b q).2 q := by
  conv_rhs => rw [← capture_loop_append b q]
  exact List.sublist_append_right _ _

theorem capture_loop_of_lb (b : Int) (q : List Dispatch)
    (h : ∀ d ∈ q, b ≤ d.stamp) : capture_loop b q = ([], q) := by
  cases q with
  | nil => rfl
  | cons d rest =>
    have hd : ¬d.stamp < b := not_lt.mpr (h d (List.mem_cons_self d rest))
    simp [capture_loop, hd]

theorem capture_loop_sorted_fst (b : Int) (q : List Dispatch) (h : StampSorted q) :
    (capture_loop b q).1 = q.filter (fun d => d.stamp < b) := by
  induction q with
  | nil => rfl
  | cons d rest ih =>
    unfold StampSorted at h
    rw [List.pairwise_cons] at h
    by_cases hd : d.stamp < b
    · simp [capture_loop, hd, ih h.2]
    · have : ∀ e ∈ rest, ¬e.stamp < b := fun e he =>
        not_lt.mpr (le_trans (not_lt.mp hd) (h.1 e he))
      simp only [capture_loop, if_neg hd]
      rw [eq_comm, List.filter_eq_nil_iff]
      intro e he
      rcases List.mem_cons.mp he with rfl | he'
      · simpa using hd
      · simpa using this e he'

theorem capture_loop_sorted_snd (b : Int) (q : List Dispatch) (h : StampSorted q) :
    (capture_loop b q).2 = q.filter (fun d => b ≤ d.stamp) := by
  induction q with
  | nil => rfl
  | cons d rest ih =>
    unfold StampSorted at h
    rw [List.pairwise_cons] at h
    by_cases hd : d.stamp < b
    · simp [capture_loop, hd, ih h.2, not_le.mpr hd]
    · have : ∀ e ∈ rest, b ≤ e.stamp := fun e he =>
        le_trans (not_lt.mp hd) (h.1 e he)
      simp only [capture_loop, if_neg hd]
      rw [eq_comm, List.filter_eq_self]
      intro e he
      rcases List.mem_cons.mp he with rfl | he'
      · simpa using not_lt.mp hd
      · simpa using this e he'

theorem mem_remove_before (s : Int) (q : List Dispatch) (d : Dispatch) :
    d ∈ remove_before s q ↔ d ∈ q ∧ s ≤ d.stamp := by
  simp [remove_before]

theorem remove_before_sublist (s : Int) (q : List Dispatch) :
    List.Sublist (remove_before s q) q :=
  List.filter_sublist q

theorem remove_before_of_lb (s : Int) (q : List Dispatch)
    (h : ∀ d ∈ q, s ≤ d.stamp) : remove_before s q = q := by
  rw [remove_before, List.filter_eq_self]
  intro d hd
  simpa using h d hd

theorem insert_dispatch_count (d e : Dispatch) (q : List Dispatch) :
    (insert_dispatch d q).count e = q.count e + if d = e then 1 else 0 := by
  induction q with
  | nil =>
    simp [insert_dispatch, List.count_cons]
  | cons x rest ih =>
    by_cases h : x.stamp ≤ d.stamp
    · simp only [insert_dispatch, if_pos h, List.count_cons, ih, beq_iff_eq]
      omega
    · simp only [insert_dispatch, if_neg h, List.count_cons, beq_iff_eq]

/-- Every element left in the queue by `capture_follower_impl` has a
stamp at or above the boundary `range.upper_stamp - delay_`.  This holds
for arbitrary (even unsorted) queues because of the final
`remove_before` call. -/
theorem capture_follower_queue_lb (f : AnyBefore) (range : CaptureRange) :
    ∀ d ∈ (capture_follower_impl f range).follower.queue_,
      range.upper_stamp - f.delay_ ≤ d.stamp := by
  intro d hd
  have hd' : d ∈ remove_before (range.upper_stamp - f.delay_)
      (capture_loop (range.upper_stamp - f.delay_) f.queue_).2 := by
    simpa [capture_follower_impl] using hd
  exact ((mem_remove_before _ _ d).mp hd').2

/-- The queue left by `capture_follower_impl` is a sublist of the
original queue. -/
theorem capture_follower_queue_sublist (f : AnyBefore) (range : CaptureRange) :
    List.Sublist (capture_follower_impl f range).follower.queue_ f.queue_ := by
  have h1 := remove_before_sublist (range.upper_stamp - f.delay_)
    (capture_loop (range.upper_stamp - f.delay_) f.queue_).2
  have h2 := capture_loop_snd_sublist (range.upper_stamp - f.delay_) f.queue_
  simpa [capture_follower_impl] using h1.trans h2

/-- The output of `capture_follower_impl` is a sublist of the original
queue. -/
theorem capture_follower_output_sublist (f : AnyBefore) (range : CaptureRange) :
    List.Sublist (capture_follower_impl f range).output f.queue_ := by
  simpa [capture_follower_impl] using
    capture_loop_fst_sublist (range.upper_stamp - f.delay_) f.queue_

/-- A lower bound on all queued stamps is preserved and carries over to
everything a sequence of captures emits. -/
theorem capture_seq_lb (c : Int) (rs : List CaptureRange) :
    ∀ f : AnyBefore, (∀ d ∈ f.queue_, c ≤ d.stamp) →
      ∀ y ∈ capture_seq f rs, c ≤ y.stamp := by
  induction rs with
  | nil => intro f _ y hy; simp [capture_seq] at hy
  | cons r rs ih =>
    intro f hf y hy
    rw [capture_seq] at hy
    rcases List.mem_append.mp hy with h1 | h2
    · exact hf y ((capture_follower_output_sublist f r).subset h1)
    · refine ih (capture_follower_impl f r).follower ?_ y h2
      intro d hd
      exact hf d ((capture_follower_queue_sublist f r).subset hd)

/-- Emissions plus retained elements of one capture never exceed the
original queue contents, counted per dispatch value. -/
theorem capture_count_le (f : AnyBefore) (r : CaptureRange) (d : Dispatch) :
    (capture_follower_impl f r).output.count d +
      (capture_follower_impl f r).follower.queue_.count d ≤ f.queue_.count d := by
  have h2 : ((capture_follower_impl f r).follower.queue_).count d ≤
      ((capture_loop (r.upper_stamp - f.delay_) f.queue_).2).count d := by
    have := remove_before_sublist (r.upper_stamp - f.delay_)
      (capture_loop (r.upper_stamp - f.delay_) f.queue_).2
    simpa [capture_follower_impl] using this.count_le d
  have hout : (capture_follower_impl f r).output =
      (capture_loop (r.upper_stamp - f.delay_) f.queue_).1 := by
    simp [capture_follower_impl]
  calc (capture_follower_impl f r).output.count d +
        (capture_follower_impl f r).follower.queue_.count d
      ≤ ((capture_loop (r.upper_stamp - f.delay_) f.queue_).1).count d +
        ((capture_loop (r.upper_stamp - f.delay_) f.queue_).2).count d := by
        rw [hout]; exact Nat.add_le_add_left h2 _
    _ = f.queue_.count d := by
        rw [← List.count_append, capture_loop_append]

/-- A capture on a queue whose stamps all sit at or above the boundary
emits nothing and changes nothing. -/
theorem capture_follower_of_lb (f : AnyBefore) (range : CaptureRange)
    (h : ∀ d ∈ f.queue_, range.upper_stamp - f.delay_ ≤ d.stamp) :
    capture_follower_impl f range = ⟨[], f, State.PRIMED⟩ := by
  obtain ⟨δ, q⟩ := f
  have hloop := capture_loop_of_lb (range.upper_stamp - δ) q h
  have hrb := remove_before_of_lb (range.upper_stamp - δ) q h
  simp [capture_follower_impl, hloop, hrb]

/-! ### Claim theorems -/

/-- C1: for an `AnyBefore` follower with delay `δ` and a capture range
`R` whose queue satisfies Invariant Q1, `capture` emits exactly the
queued dispatches with stamp strictly below the boundary
`B = R.upper_stamp - δ` (computed from the upper stamp), verbatim, in
order, each exactly once, and returns `PRIMED`. -/
theorem anybefore_capture_emits_exactly_before_boundary
    (f : AnyBefore) (range : CaptureRange) (h : StampSorted f.queue_) :
    (capture_follower_impl f range).output =
      f.queue_.filter (fun d => d.stamp < range.upper_stamp - f.delay_) ∧
    (capture_follower_impl f range).state = State.PRIMED := by
  constructor
  · simpa [capture_follower_impl] using
      capture_loop_sorted_fst (range.upper_stamp - f.delay_) f.queue_ h
  · rfl

/-- Witness for C1 at a concrete sorted queue and range. -/
theorem anybefore_capture_emits_exactly_before_boundary_witness :
    StampSorted [Dispatch.mk 1 10, Dispatch.mk 4 20, Dispatch.mk 9 30] ∧
    ((capture_follower_impl ⟨2, [⟨1, 10⟩, ⟨4, 20⟩, ⟨9, 30⟩]⟩ ⟨0, 7⟩).output =
        List.filter (fun d => d.stamp < (7 : Int) - 2) [⟨1, 10⟩, ⟨4, 20⟩, ⟨9, 30⟩] ∧
      (capture_follower_impl ⟨2, [⟨1, 10⟩, ⟨4, 20⟩, ⟨9, 30⟩]⟩ ⟨0, 7⟩).state = State.PRIMED) :=
  ⟨by decide,
    anybefore_capture_emits_exactly_before_boundary ⟨2, [⟨1, 10⟩, ⟨4, 20⟩, ⟨9, 30⟩]⟩ ⟨0, 7⟩
      (by decide)⟩

/-- C2: after any `capture` call (which always returns `PRIMED`), every
element remaining in the queue has stamp at or above the retention
boundary `R.upper_stamp - δ`. -/
theorem anybefore_retention_boundary (f : AnyBefore) (range : CaptureRange) :
    (capture_follower_impl f range).state = State.PRIMED ∧
    ∀ d ∈ (capture_follower_impl f range).follower.queue_,
      range.upper_stamp - f.delay_ ≤ d.stamp :=
  ⟨rfl, capture_follower_queue_lb f range⟩

/-- Witness for C2 at a concrete queue, range and remaining element. -/
theorem anybefore_retention_boundary_witness :
    Dispatch.mk 5 1 ∈ (capture_follower_impl ⟨0, [⟨5, 1⟩]⟩ ⟨0, 3⟩).follower.queue_ ∧
    (CaptureRange.mk 0 3).upper_stamp - (AnyBefore.mk 0 [⟨5, 1⟩]).delay_ ≤
      (Dispatch.mk 5 1).stamp :=
  ⟨by decide, (anybefore_retention_boundary ⟨0, [⟨5, 1⟩]⟩ ⟨0, 3⟩).2 ⟨5, 1⟩ (by decide)⟩

/-- C3: `dry_capture` returns `PRIMED` for every captor state (including
an empty queue) and every range; the policy never makes the group
wait. -/
theorem anybefore_dry_capture_always_primed (f : AnyBefore) (range : CaptureRange) :
    (dry_capture_follower_impl f range).1 = State.PRIMED :=
  rfl

/-- C4: `dry_capture` leaves the captor unchanged, and an immediately
following `capture` with the same range returns exactly the state
`dry_capture` reported. -/
theorem anybefore_dry_wet_agreement (f : AnyBefore) (range : CaptureRange) :
    (dry_capture_follower_impl f range).2 = f ∧
    (capture_follower_impl (dry_capture_follower_impl f range).2 range).state =
      (dry_capture_follower_impl f range).1 :=
  ⟨rfl, rfl⟩

/-- C5: `abort(t)` removes exactly the queued elements with stamp
strictly below `t - δ` (keeping the others verbatim and in order),
emits nothing by its very signature, and leaves the delay parameter
unchanged. -/
theorem anybefore_abort_frame (f : AnyBefore) (t : Int) :
    (abort_follower_impl f t).queue_ =
      f.queue_.filter (fun d => t - f.delay_ ≤ d.stamp) ∧
    (abort_follower_impl f t).delay_ = f.delay_ :=
  ⟨rfl, rfl⟩

/-- C8: concrete scenario — delay 1, empty queue, range `[5, 6]`: the
boundary is `6 - 1 = 5`, nothing is emitted, the queue stays empty and
the state is `PRIMED`. -/
theorem anybefore_chunk_scenario :
    (6 : Int) - 1 = 5 ∧
    capture_follower_impl ⟨1, []⟩ ⟨5, 6⟩ =
      { output := [], follower := ⟨1, []⟩, state := State.PRIMED } :=
  ⟨by decide, rfl⟩

/-- C9: the outcome of `capture` and of `dry_capture` depends only on
the queue, the delay, and the range's upper stamp - ranges agreeing on
`upper_stamp` produce identical results and post-states. -/
theorem anybefore_depends_only_on_upper (f : AnyBefore) (r r' : CaptureRange)
    (h : r.upper_stamp = r'.upper_stamp) :
    capture_follower_impl f r = capture_follower_impl f r' ∧
    (dry_capture_follower_impl f r).1 = (dry_capture_follower_impl f r').1 ∧
    (dry_capture_follower_impl f r).2 = (dry_capture_follower_impl f r').2 := by
  refine ⟨?_, rfl, rfl⟩
  simp [capture_follower_impl, h]

/-- Witness for C9: two ranges differing only in the lower stamp. -/
theorem anybefore_depends_only_on_upper_witness :
    (CaptureRange.mk 0 5).upper_stamp = (CaptureRange.mk 2 5).upper_stamp ∧
    (capture_follower_impl ⟨1, [⟨3, 0⟩]⟩ ⟨0, 5⟩ = capture_follower_impl ⟨1, [⟨3, 0⟩]⟩ ⟨2, 5⟩ ∧
      (dry_capture_follower_impl ⟨1, [⟨3, 0⟩]⟩ ⟨0, 5⟩).1 =
        (dry_capture_follower_impl ⟨1, [⟨3, 0⟩]⟩ ⟨2, 5⟩).1 ∧
      (dry_capture_follower_impl ⟨1, [⟨3, 0⟩]⟩ ⟨0, 5⟩).2 =
        (dry_capture_follower_impl ⟨1, [⟨3, 0⟩]⟩ ⟨2, 5⟩).2) :=
  ⟨rfl, anybefore_depends_only_on_upper ⟨1, [⟨3, 0⟩]⟩ ⟨0, 5⟩ ⟨2, 5⟩ rfl⟩

/-- C10: a second `capture` with the same range, immediately after a
first one, emits nothing and leaves the captor unchanged. -/
theorem anybefore_capture_idempotent (f : AnyBefore) (range : CaptureRange) :
    (capture_follower_impl (capture_follower_impl f range).follower range).output = [] ∧
    (capture_follower_impl (capture_follower_impl f range).follower range).follower =
      (capture_follower_impl f range).follower := by
  have hq : ∀ d ∈ (capture_follower_impl f range).follower.queue_,
      range.upper_stamp - (capture_follower_impl f range).follower.delay_ ≤ d.stamp :=
    capture_follower_queue_lb f range
  rw [capture_follower_of_lb (capture_follower_impl f range).follower range hq]
  exact ⟨rfl, rfl⟩

/-- C6: starting from a queue satisfying Invariant Q1, any sequence of
capture calls whose range upper stamps are non-decreasing emits a
concatenated output whose stamps are non-decreasing. -/
theorem anybefore_emission_order (rs : List CaptureRange) :
    ∀ f : AnyBefore, StampSorted f.queue_ →
      (rs.map CaptureRange.upper_stamp).Pairwise (· ≤ ·) →
      (capture_seq f rs).Pairwise (fun a b => a.stamp ≤ b.stamp) := by
  induction rs with
  | nil => intro f _ _; simp [capture_seq]
  | cons r rs ih =>
    intro f hs hr
    rw [List.map_cons, List.pairwise_cons] at hr
    rw [capture_seq, List.pairwise_append]
    refine ⟨hs.sublist (capture_follower_output_sublist f r), ?_, ?_⟩
    · exact ih (capture_follower_impl f r).follower
        (hs.sublist (capture_follower_queue_sublist f r)) hr.2
    · intro x hx y hy
      have hxb : x.stamp < r.upper_stamp - f.delay_ := by
        refine capture_loop_fst_lt (r.upper_stamp - f.delay_) f.queue_ x ?_
        simpa [capture_follower_impl] using hx
      have hyb : r.upper_stamp - f.delay_ ≤ y.stamp :=
        capture_seq_lb (r.upper_stamp - f.delay_) rs (capture_follower_impl f r).follower
          (capture_follower_queue_lb f r) y hy
      exact le_of_lt (lt_of_lt_of_le hxb hyb)

/-- Witness for C6 on a sorted three-element queue and two ranges with
non-decreasing upper stamps. -/
theorem anybefore_emission_order_witness :
    StampSorted [Dispatch.mk 1 0, Dispatch.mk 3 1, Dispatch.mk 5 2] ∧
    ([CaptureRange.mk 0 2, CaptureRange.mk 0 6].map CaptureRange.upper_stamp).Pairwise
      (· ≤ ·) ∧
    (capture_seq ⟨0, [⟨1, 0⟩, ⟨3, 1⟩, ⟨5, 2⟩]⟩ [⟨0, 2⟩, ⟨0, 6⟩]).Pairwise
      (fun a b => a.stamp ≤ b.stamp) :=
  ⟨by decide, by decide,
    anybefore_emission_order [⟨0, 2⟩, ⟨0, 6⟩] ⟨0, [⟨1, 0⟩, ⟨3, 1⟩, ⟨5, 2⟩]⟩
      (by decide) (by decide)⟩

/-- C7: over any interleaved sequence of inject, capture, dry-capture
and abort operations, each dispatch value is emitted at most as often
as it was present initially plus injected: emissions plus the surviving
queue never exceed initial queue plus injections (counted per value). -/
theorem anybefore_no_duplication (ops : List Op) :
    ∀ (f : AnyBefore) (d : Dispatch),
      (run_ops f ops).1.count d + (run_ops f ops).2.queue_.count d ≤
        f.queue_.count d + (injected ops).count d := by
  induction ops with
  | nil => intro f d; simp [run_ops, injected]
  | cons op ops ih =>
    intro f d
    cases op with
    | inject e =>
      have h := ih { f with queue_ := insert_dispatch e f.queue_ } d
      have hc := insert_dispatch_count e d f.queue_
      simp only [run_ops, injected, List.count_cons, beq_iff_eq] at h ⊢
      omega
    | capture r =>
      have h := ih (capture_follower_impl f r).follower d
      have hc := capture_count_le f r d
      simp only [run_ops, injected, List.count_append] at h ⊢
      omega
    | dry_capture r =>
      have h := ih f d
      simp only [run_ops, injected, dry_capture_follower_impl] at h ⊢
      omega
    | abort t =>
      have h := ih (abort_follower_impl f t) d
      have hc : (abort_follower_impl f t).queue_.count d ≤ f.queue_.count d :=
        (remove_before_sublist (t - f.delay_) f.queue_).count_le d
      simp only [run_ops, injected] at h ⊢
      omega

end Flow
